import Mathlib

/-!
Shallow embedding of the configuration-resolution and validation engine of
the j2magicwand editor plugin, together with theorems settling the claims
about it.  Documents are modelled as lists of characters, the filesystem and
the external YAML/JSON parsers as explicit function parameters, and the
persisted configuration collection as a list of records.
-/

/-- The character U+007B, written via its code so that templates can be built
without brace literals. -/
def openBrace : Char := '\x7b'

/-- The character U+007D. -/
def closeBrace : Char := '\x7d'

/-- JavaScript whitespace as removed by `String.prototype.trim` (the common
ASCII part: space, tab, line feed, vertical tab, form feed, carriage return). -/
def isJsSpace (c : Char) : Bool :=
  c == ' ' || c == '\t' || c == '\n' || c == '\x0b' || c == '\x0c' || c == '\r'

/-- Model of JavaScript `String.prototype.trim` on character lists. -/
def trimChars (l : List Char) : List Char :=
  ((l.dropWhile isJsSpace).reverse.dropWhile isJsSpace).reverse

/-- A character accepted by the identifier check `/^[a-zA-Z0-9_]+$/` used in
`updateDiagnostics`. -/
def isWordChar (c : Char) : Bool :=
  ('a' ≤ c && c ≤ 'z') || ('A' ≤ c && c ≤ 'Z') || ('0' ≤ c && c ≤ '9') || c == '_'

/-- Model of the test `/^[a-zA-Z0-9_]+$/.test(variable)`. -/
def isValidIdentChars (l : List Char) : Bool :=
  !l.isEmpty && l.all isWordChar

/-- Structured values produced by the external YAML / JSON parsers
(`js-yaml`'s `yaml.load`, `JSON.parse`).  Numbers are restricted to the
integers, which is all the claims need. -/
inductive JsonValue : Type where
  | null : JsonValue
  | bool : Bool → JsonValue
  | num : Int → JsonValue
  | str : String → JsonValue
  | arr : List JsonValue → JsonValue
  | obj : List (String × JsonValue) → JsonValue

/-- A merged namespace: the key/value entries of a JavaScript object, in
insertion order. -/
abbrev NS : Type := List (String × JsonValue)

/-- JavaScript object property read where the last binding for a key wins
(a plain object never has duplicate keys; on duplicate-free lists this is
ordinary association-list lookup). -/
def lookupNS : NS → String → Option JsonValue
  | [], _ => none
  | p :: rest, k =>
    match lookupNS rest k with
    | some v => some v
    | none => if p.1 == k then some p.2 else none

/-- JavaScript property write `obj[k] = v` as performed by `Object.assign`:
an existing binding for the key is updated in place, otherwise the new
binding is appended. -/
def assignOne : NS → String → JsonValue → NS
  | [], k, v => [(k, v)]
  | p :: rest, k, v => if p.1 == k then (k, v) :: rest else p :: assignOne rest k v

/-- `Object.assign(acc, src)`: copy the entries of `src` into `acc` in
order. -/
def assignObj (acc src : NS) : NS :=
  src.foldl (fun a p => assignOne a p.1 p.2) acc

/-- Left-to-right `Object.assign`-style merge of an ordered list of source
maps into one namespace, as performed by `loadPlaceholders`:
`Object.assign(placeholders, filePlaceholders)` for each source in order,
starting from the empty object. -/
def mergeSources (maps : List NS) : NS :=
  maps.foldl assignObj []

/-- The keys of a namespace, in order (`Object.keys`). -/
def keysOf (m : NS) : List String :=
  m.map Prod.fst

/-- The spec-level description of what a key maps to after a merge: the value
given by the last map in the list that contains the key. -/
def lastSourceValue (maps : List NS) (k : String) : Option JsonValue :=
  maps.foldl (fun acc m => match lookupNS m k with | some v => some v | none => acc) none

/-! ## Placeholder scanner

`updateDiagnostics`, `provideCodeLenses` and `updateRenderView` all scan the
document with the global regex `/{{([^}]+)}}/g`: at each position, a match is
two open braces, a maximal non-empty run of non-close-brace characters, and
two close braces; scanning resumes after the match, and on failure the start
position advances by one character. -/

/-- Match `([^}]+)}}` at the start of the list: collect characters up to the
first close brace and require it to be immediately followed by a second one.
Returns the captured inner text and the remaining input. -/
def matchInner : List Char → Option (List Char × List Char)
  | [] => none
  | c :: rest =>
    if c == closeBrace then
      match rest with
      | c2 :: rest2 => if c2 == closeBrace then some ([], rest2) else none
      | [] => none
    else
      (matchInner rest).map (fun p => (c :: p.1, p.2))

/-- Match the whole pattern `{{([^}]+)}}` at the start of the list. -/
def matchAt : List Char → Option (List Char × List Char)
  | c1 :: c2 :: rest =>
    if c1 == openBrace && c2 == openBrace then
      match matchInner rest with
      | some (i, r) => if i.isEmpty then none else some (i, r)
      | none => none
    else none
  | _ => none

/-- One fuel unit is spent per loop iteration of the regex scan; every
iteration consumes at least one character, so `l.length` fuel always
suffices. -/
def scanFuel : Nat → List Char → List (List Char)
  | 0, _ => []
  | _ + 1, [] => []
  | fuel + 1, c :: rest =>
    match matchAt (c :: rest) with
    | some (i, r) => i :: scanFuel fuel r
    | none => scanFuel fuel rest

/-- The ordered sequence of raw inner texts of all placeholder occurrences in
a document, exactly as enumerated by `placeholderRegex.exec` in a loop. -/
def scanChars (l : List Char) : List (List Char) :=
  scanFuel l.length l

/-- The full matched text `match[0]` of an occurrence with the given raw
inner text. -/
def wrapBraces (inner : List Char) : List Char :=
  openBrace :: openBrace :: inner ++ closeBrace :: closeBrace :: []

/-- A declarative statement that a document contains at least one instance of
the delimiter pattern: some decomposition around a non-empty inner text free
of close braces. -/
def hasPattern (l : List Char) : Prop :=
  ∃ pre i post, l = pre ++ wrapBraces i ++ post ∧ i ≠ [] ∧ ∀ c ∈ i, c ≠ closeBrace

/-- Alternating interleaving of gap texts and placeholder occurrences; used
to state that the scanner reports occurrences in document order. -/
def joinScan : List (List Char) → List (List Char) → List Char
  | [], _ => []
  | g :: _, [] => g
  | g :: gaps, i :: inners => g ++ wrapBraces i ++ joinScan gaps inners

/-! ## Validation engine

The current `J2Diagnostics.updateDiagnostics` (the version built on
`safeParseYaml` and `isJ2TemplateSync`) classifies each scanned occurrence
with four short-circuiting checks, in this order: empty, spaces, invalid
characters, undefined. -/

/-- The four diagnostic classifications emitted by `updateDiagnostics`. -/
inductive DiagClass : Type where
  /-- "Empty placeholder is not allowed. Use format: ..." -/
  | emptyPlaceholder : DiagClass
  /-- "Spaces are not allowed in variable names. Use underscores instead ..." -/
  | spacesNotAllowed : DiagClass
  /-- "Invalid characters in placeholder. Only letters, numbers, and underscores are allowed." -/
  | invalidChars : DiagClass
  /-- "Variable ... is not defined in any of the YAML files" -/
  | undefinedVar : DiagClass
deriving DecidableEq

/-- Classification of one occurrence by the current `updateDiagnostics`
(placeholderProvider.ts lines 396-446): `variable = variableRaw.trim()`;
empty check, then `variable.includes(' ')`, then the identifier regex, then
membership in the valid-variable set.  Returns `none` when the occurrence is
valid and produces no diagnostic. -/
def classifyOccurrence (validVariables : List String) (variableRaw : List Char) : Option DiagClass :=
  let varName := trimChars variableRaw
  if varName.isEmpty then some DiagClass.emptyPlaceholder
  else if varName.contains ' ' then some DiagClass.spacesNotAllowed
  else if !isValidIdentChars varName then some DiagClass.invalidChars
  else if !(validVariables.contains (String.mk varName)) then some DiagClass.undefinedVar
  else none

/-- Classification of one occurrence by the older `updateDiagnostics`
(placeholderProvider.ts lines 244-293): there the space check
`variableRaw !== variable || variable.includes(' ')` comes first and also
fires on a raw/trimmed difference. -/
def classifyOccurrenceLegacy (validVariables : List String) (variableRaw : List Char) : Option DiagClass :=
  let varName := trimChars variableRaw
  if variableRaw ≠ varName || varName.contains ' ' then some DiagClass.spacesNotAllowed
  else if varName.isEmpty then some DiagClass.emptyPlaceholder
  else if !isValidIdentChars varName then some DiagClass.invalidChars
  else if !(validVariables.contains (String.mk varName)) then some DiagClass.undefinedVar
  else none

/-- The diagnostics produced for a document against a merged namespace:
one entry per scanned occurrence that fails validation, in document order
(`validVariables = new Set(Object.keys(placeholders))`). -/
def updateDiagModel (placeholders : NS) (text : List Char) : List DiagClass :=
  (scanChars text).filterMap (classifyOccurrence (keysOf placeholders))

/-! ## Safe deserializer (parsing.ts) -/

/-- Behaviour of an external text parser (`yaml.load` or `JSON.parse`):
either a structured value or a thrown error. -/
abbrev JParser : Type := String → Except String JsonValue

/-- parsing.ts `isPlaceholderObject`: non-null, of object type, not an
array.  Of the modelled parser results only a plain object qualifies. -/
def isPlaceholderObject : JsonValue → Bool
  | JsonValue.obj _ => true
  | _ => false

/-- Model of JavaScript `content.trim()` on strings. -/
def jsTrim (s : String) : String :=
  String.mk (trimChars s.data)

/-- parsing.ts `safeParseYaml`: blank input gives `null`; a parser throw
gives `null`; a parsed value that is not a plain object gives `null`;
otherwise the parsed object is returned. -/
def safeParseYaml (parse : JParser) (content : String) : Option JsonValue :=
  if jsTrim content == "" then none
  else
    match parse content with
    | Except.error _ => none
    | Except.ok parsed => if !isPlaceholderObject parsed then none else some parsed

/-- parsing.ts `safeParseJson`: blank input gives `null`; a parser throw
gives `null`; any successfully parsed value is returned as is (there is no
shape check in this entry point). -/
def safeParseJson (parse : JParser) (content : String) : Option JsonValue :=
  if jsTrim content == "" then none
  else
    match parse content with
    | Except.error _ => none
    | Except.ok parsed => some parsed

/-! ## Source merger (J2Diagnostics.loadPlaceholders) -/

/-- What the filesystem yields for a path: `existsSync` false, a read that
throws, or the file's text. -/
inductive FileState : Type where
  | absent : FileState
  | unreadable : FileState
  | content : String → FileState

/-- The fields `Object.assign` copies out of a parsed source value.  Only
objects reach this point in `loadPlaceholders` because `safeParseYaml`
rejects everything else. -/
def fieldsOf : JsonValue → NS
  | JsonValue.obj fields => fields
  | _ => []

/-- `J2Diagnostics.loadPlaceholders` (the current version): for each
configured path in order, skip it when the file is missing, when reading it
throws, or when `safeParseYaml` returns `null`; otherwise assign its entries
into the accumulator, later files overriding earlier ones. -/
def loadPlaceholders (fs : String → FileState) (parse : JParser) (yamlPaths : List String) : NS :=
  yamlPaths.foldl
    (fun placeholders yamlPath =>
      match fs yamlPath with
      | FileState.absent => placeholders
      | FileState.unreadable => placeholders
      | FileState.content yamlContent =>
        match safeParseYaml parse yamlContent with
        | some filePlaceholders => assignObj placeholders (fieldsOf filePlaceholders)
        | none => placeholders)
    []

/-- The sources that survive the skip rules of `loadPlaceholders`: the path
exists, reads, and deserializes to an object. -/
def goodSources (fs : String → FileState) (parse : JParser) (yamlPaths : List String) : List NS :=
  yamlPaths.filterMap
    (fun yamlPath =>
      match fs yamlPath with
      | FileState.absent => none
      | FileState.unreadable => none
      | FileState.content yamlContent =>
        match safeParseYaml parse yamlContent with
        | some filePlaceholders => some (fieldsOf filePlaceholders)
        | none => none)

/-! ## Render view (J2RenderView.updateRenderView) -/

mutual
/-- JavaScript `String(value)` on the modelled parser values: strings pass
through, numbers and booleans print, `null` prints as "null", arrays join
their elements with commas, plain objects print as "[object Object]". -/
def toStringJS : JsonValue → String
  | JsonValue.null => ("null")
  | JsonValue.bool true => ("true")
  | JsonValue.bool false => ("false")
  | JsonValue.num n => toString n
  | JsonValue.str s => s
  | JsonValue.arr xs => String.intercalate (",") (toStringJSList xs)
  | JsonValue.obj _ => ("[object Object]")

/-- `String(...)` of every element of an array value, in order. -/
def toStringJSList : List JsonValue → List String
  | [] => []
  | x :: xs => toStringJS x :: toStringJSList xs
end

/-- JavaScript `str.replace(search, repl)` with a plain-string search: replace
the first occurrence of `pat`, or return the text unchanged when `pat` does
not occur.  (`$`-escapes in the replacement are not modelled.) -/
def replaceFirst : List Char → List Char → List Char → List Char
  | [], pat, repl => if pat.isPrefixOf [] then repl else []
  | c :: rest, pat, repl =>
    if pat.isPrefixOf (c :: rest) then repl ++ (c :: rest).drop pat.length
    else c :: replaceFirst rest pat repl

/-- The body of the render loop of `J2RenderView.updateRenderView` for one
regex match: `variable = match[1]` (not trimmed); when it contains no space
and `placeholders[variable]` is defined, replace the first occurrence of
`match[0]` in the accumulated text with `String(value)`. -/
def renderStep (placeholders : NS) (renderedText : List Char) (variableRaw : List Char) : List Char :=
  if variableRaw.contains ' ' then renderedText
  else
    match lookupNS placeholders (String.mk variableRaw) with
    | some value => replaceFirst renderedText (wrapBraces variableRaw) (toStringJS value).data
    | none => renderedText

/-- `J2RenderView.updateRenderView`'s substitution pass: scan the document
text once and fold the per-match replacement over it, starting from the
document text itself. -/
def renderTemplate (placeholders : NS) (text : List Char) : List Char :=
  (scanChars text).foldl (renderStep placeholders) text

/-! ## Service-config store (extension.ts save branch and
`j2magicwand.setYamlConfiguration` handler) -/

/-- One persisted service-configuration record. -/
structure SvcConfig : Type where
  serviceName : String
  environment : String
  yamlPaths : List String
deriving DecidableEq

/-- The `(serviceName, environment)` key test used by the store's
filter-then-append upsert. -/
def sameKey (r c : SvcConfig) : Bool :=
  c.serviceName == r.serviceName && c.environment == r.environment

/-- The upsert performed by both the Save branch of `setYamlPath` and the
`setYamlConfiguration` command handler: drop every record with the new
record's key, then append the new record. -/
def upsertConfig (allConfigs : List SvcConfig) (r : SvcConfig) : List SvcConfig :=
  (allConfigs.filter (fun c => !(c.serviceName == r.serviceName && c.environment == r.environment))) ++ [r]

/-! ## Central-settings discoverer (centralSettings.ts) -/

/-- `path.join(a, b)` for the forward-slash paths the model uses. -/
def pathJoin (a b : String) : String :=
  a ++ ("/") ++ b

/-- JavaScript `String.prototype.endsWith` on the modelled strings. -/
def strEndsWith (s suffix : String) : Bool :=
  suffix.data.isSuffixOf s.data

/-- JavaScript `String.prototype.startsWith`. -/
def strStartsWith (s pre : String) : Bool :=
  pre.data.isPrefixOf s.data

/-- Drop the final `n` characters of a string. -/
def strDropRight (s : String) (n : Nat) : String :=
  String.mk (s.data.take (s.data.length - n))

/-- Drop the first `n` characters of a string. -/
def strDropLeft (s : String) (n : Nat) : String :=
  String.mk (s.data.drop n)

/-- Strip a final `.yml` or `.yaml` extension, the `\.(yml|yaml)$` part of
the discoverer's filename regexes. -/
def stripYamlExt (file : String) : Option String :=
  if strEndsWith file (".yaml") then some (strDropRight file 5)
  else if strEndsWith file (".yml") then some (strDropRight file 4)
  else none

/-- The environment captured by `/^application-(.+)\.(yml|yaml)$/`, if the
filename matches. -/
def appEnvOf (file : String) : Option String :=
  match stripYamlExt file with
  | some base =>
    if strStartsWith base ("application-") && decide (12 < base.data.length) then
      some (strDropLeft base 12)
    else none
  | none => none

/-- The environment captured for a service directory file: first
`/^application-(.+)\.(yml|yaml)$/`, then `/^{serviceName}-(.+)\.(yml|yaml)$/`. -/
def svcEnvOf (serviceName file : String) : Option String :=
  match appEnvOf file with
  | some env => some env
  | none =>
    match stripYamlExt file with
    | some base =>
      if strStartsWith base (serviceName ++ ("-")) && decide (serviceName.data.length + 1 < base.data.length) then
        some (strDropLeft base (serviceName.data.length + 1))
      else none
    | none => none

/-- `Set.add` with JavaScript `Set` iteration order (insertion order,
duplicates ignored). -/
def insertOrd (l : List String) (x : String) : List String :=
  if l.contains x then l else l ++ [x]

/-- A filename counts as YAML-like when it ends in `.yml` or `.yaml`. -/
def isYamlFile (f : String) : Bool :=
  strEndsWith f (".yml") || strEndsWith f (".yaml")

/-- The environments discovered from the root listing: every
`application-<env>.<yml|yaml>` file, with the plain base files skipped
explicitly first. -/
def rootEnvs (rootFiles : List String) : List String :=
  rootFiles.foldl
    (fun envs file =>
      if file == ("application.yml") || file == ("application.yaml") then envs
      else
        match appEnvOf file with
        | some env => insertOrd envs env
        | none => envs)
    []

/-- The filesystem as seen by `createServiceConfigurations`: the root
directory listing with `isDirectory` flags, the listing of each
subdirectory (`none` modelling a `readdirSync` throw), and `existsSync`. -/
structure CentralFS : Type where
  rootEntries : List (String × Bool)
  subFiles : String → Option (List String)
  pathExists : String → Bool

/-- The discovery phase of `createServiceConfigurations`: collect the
service directories (directories containing at least one YAML-like file,
directories whose listing throws being skipped) and extend the environment
set with every service-local `application-<env>` or `<service>-<env>` file. -/
def scanServices (fs : CentralFS) (centralPath : String) : List String × List String :=
  fs.rootEntries.foldl
    (fun acc entry =>
      if entry.2 then
        match fs.subFiles (pathJoin centralPath entry.1) with
        | none => acc
        | some serviceFiles =>
          if serviceFiles.any isYamlFile then
            let envs := serviceFiles.foldl
              (fun envs file =>
                match svcEnvOf entry.1 file with
                | some env => insertOrd envs env
                | none => envs)
              acc.2
            (insertOrd acc.1 entry.1, envs)
          else acc
      else acc)
    ([], rootEnvs (fs.rootEntries.map Prod.fst))

/-- The `yamlPaths` array built for one service-environment pair, with the
four conditional `push` blocks of the source in their program order:
global base, service base (`{service}.yml` falling back to
`application.yml`), global environment file, service environment file
(`{service}-{env}.yml` falling back to `application-{env}.yml`). -/
def buildYamlPaths (exists_ : String → Bool) (centralPath service env : String) : List String :=
  let globalBase := pathJoin centralPath ("application.yml")
  let p1 := if exists_ globalBase then [globalBase] else []
  let serviceBase := pathJoin (pathJoin centralPath service) (service ++ (".yml"))
  let serviceBaseFallback := pathJoin (pathJoin centralPath service) ("application.yml")
  let p2 :=
    if exists_ serviceBase then [serviceBase]
    else if exists_ serviceBaseFallback then [serviceBaseFallback] else []
  let globalEnv := pathJoin centralPath (("application-") ++ env ++ (".yml"))
  let p3 := if exists_ globalEnv then [globalEnv] else []
  let serviceEnv := pathJoin (pathJoin centralPath service) (service ++ ("-") ++ env ++ (".yml"))
  let serviceEnvFallback := pathJoin (pathJoin centralPath service) (("application-") ++ env ++ (".yml"))
  let p4 :=
    if exists_ serviceEnv then [serviceEnv]
    else if exists_ serviceEnvFallback then [serviceEnvFallback] else []
  p1 ++ p2 ++ p3 ++ p4

/-- The `yamlPaths` list built in the no-services fallback branch: global
base plus the global per-environment file. -/
def buildGlobalYamlPaths (exists_ : String → Bool) (centralPath env : String) : List String :=
  let globalBase := pathJoin centralPath ("application.yml")
  let p1 := if exists_ globalBase then [globalBase] else []
  let globalEnv := pathJoin centralPath (("application-") ++ env ++ (".yml"))
  let p2 := if exists_ globalEnv then [globalEnv] else []
  p1 ++ p2

/-- `CentralSettingsLoader.createServiceConfigurations`: after discovery,
emit one record per service-environment pair (or per environment with
service name "global" when no service directory was found), keeping only
pairs with a non-empty path list.  The nested `for` loops with a conditional
`configs.push` are rendered as `flatMap`/`filterMap`. -/
def createServiceConfigurations (fs : CentralFS) (centralPath : String) : List SvcConfig :=
  if centralPath == ("") || !fs.pathExists centralPath then []
  else
    let scanned := scanServices fs centralPath
    let services := scanned.1
    let environments := scanned.2
    if !services.isEmpty then
      services.flatMap
        (fun service =>
          environments.filterMap
            (fun env =>
              let yamlPaths := buildYamlPaths fs.pathExists centralPath service env
              if !yamlPaths.isEmpty then
                some { serviceName := service, environment := env, yamlPaths := yamlPaths }
              else none))
    else
      environments.filterMap
        (fun env =>
          let yamlPaths := buildGlobalYamlPaths fs.pathExists centralPath env
          if !yamlPaths.isEmpty then
            some { serviceName := ("global"), environment := env, yamlPaths := yamlPaths }
          else none)

/-- The layered source-path list in the words of the amended specification:
global base file, then service-specific base file (service-name-prefixed,
falling back to the generic application base name), then global
per-environment file, then service-specific per-environment file
(service-name-prefixed, falling back to the generic per-environment name),
each layer included only if it exists on disk. -/
def layeredPathsSpec (exists_ : String → Bool) (centralPath service env : String) : List String :=
  (if exists_ (pathJoin centralPath ("application.yml"))
    then [pathJoin centralPath ("application.yml")] else [])
  ++ (if exists_ (pathJoin (pathJoin centralPath service) (service ++ (".yml")))
      then [pathJoin (pathJoin centralPath service) (service ++ (".yml"))]
      else if exists_ (pathJoin (pathJoin centralPath service) ("application.yml"))
      then [pathJoin (pathJoin centralPath service) ("application.yml")] else [])
  ++ (if exists_ (pathJoin centralPath (("application-") ++ env ++ (".yml")))
      then [pathJoin centralPath (("application-") ++ env ++ (".yml"))] else [])
  ++ (if exists_ (pathJoin (pathJoin centralPath service) (service ++ ("-") ++ env ++ (".yml")))
      then [pathJoin (pathJoin centralPath service) (service ++ ("-") ++ env ++ (".yml"))]
      else if exists_ (pathJoin (pathJoin centralPath service) (("application-") ++ env ++ (".yml")))
      then [pathJoin (pathJoin centralPath service) (("application-") ++ env ++ (".yml"))] else [])

/-! ## Auto-resolution policy (centralSettings.ts) -/

/-- Split a character list at every occurrence of a separator character. -/
def splitOnSep (sep : Char) : List Char → List (List Char)
  | [] => [[]]
  | c :: rest =>
    match splitOnSep sep rest with
    | [] => [[c]]
    | h :: t => if c == sep then [] :: h :: t else (c :: h) :: t

/-- Model of `path.basename(path.dirname(p))` for forward-slash paths with no
trailing separator: the second-to-last path component, or "." when the path
has no directory part. -/
def parentDirName (p : String) : String :=
  match ((splitOnSep '/' p.data).dropLast).getLast? with
  | some comp => String.mk comp
  | none => (".")

/-- `CentralSettingsLoader.extractServiceName`: replace underscores, forward
slashes and dots with hyphens, then lower-case. -/
def extractServiceName (folderName : String) : String :=
  String.mk
    ((((folderName.data.map (fun c => if c == '_' then '-' else c)).map
        (fun c => if c == '/' then '-' else c)).map
        (fun c => if c == '.' then '-' else c)).map Char.toLower)

/-- `CentralSettingsLoader.loadConfigurationForFile`: derive the service name
from the document's parent folder, read the preferred environment (default
"dev"), and look up the stored records — first by `(service, environment)`,
then by service name alone; the saved-file-missing and parse-failure cases
are modelled by `saveFileExists` and by passing the parsed record list (a
parse failure yields `[]` via `|| []`). -/
def loadConfigurationForFile (saveFileExists : Bool) (configs : List SvcConfig)
    (lastEnvironment : Option String) (j2FilePath : String) : Option (List String) :=
  let serviceName := extractServiceName (parentDirName j2FilePath)
  let environment := lastEnvironment.getD ("dev")
  if !saveFileExists then none
  else
    match configs.find? (fun c => c.serviceName == serviceName && c.environment == environment) with
    | some config => some config.yamlPaths
    | none =>
      match configs.find? (fun c => c.serviceName == serviceName) with
      | some config => some config.yamlPaths
      | none => none

/-! ## Concrete fixtures used by witnesses and counterexamples -/

/-- The central-settings tree of the specification's discovery scenario:
`application.yml`, `application-dev.yml` and `svcA/svcA.yml` under the
root "root". -/
def fsScenario : CentralFS where
  rootEntries := [(("application.yml"), false), (("application-dev.yml"), false), (("svcA"), true)]
  subFiles := fun d => if d == ("root/svcA") then some [("svcA.yml")] else none
  pathExists := fun p =>
    [("root"), ("root/application.yml"), ("root/application-dev.yml"), ("root/svcA/svcA.yml")].contains p

/-- A parser behaving like `JSON.parse` on the input "[1]": a top-level
list value. -/
def parseTopLevelArr : JParser :=
  fun s => if s == ("[1]") then Except.ok (JsonValue.arr [JsonValue.num 1]) else Except.error ("SyntaxError")

/-- A one-entry namespace defining the key "a". -/
def nsSingleA : NS := [(("a"), JsonValue.str ("1"))]

/-- The template text consisting of the single occurrence with raw inner
text " a " (a space-padded defined variable). -/
def paddedATemplate : List Char := ("\x7b\x7b a \x7d\x7d").toList

/-! # Theorems

Helper lemmas first, then one theorem per claim (with its witness or
counterexample where required). -/

theorem lookupNS_eq_none_of_not_mem (m : NS) (k : String) (h : k ∉ keysOf m) :
    lookupNS m k = none := by
  induction m with
  | nil => rfl
  | cons p rest ih =>
    simp only [keysOf, List.map_cons, List.mem_cons, not_or] at h
    simp only [lookupNS, ih h.2]
    have : (p.1 == k) = false := by
      simp only [beq_eq_false_iff_ne, ne_eq]
      exact fun hk => h.1 (hk ▸ rfl)
    simp [this]

theorem keysOf_assignOne (m : NS) (k : String) (v : JsonValue) :
    keysOf (assignOne m k v) = if k ∈ keysOf m then keysOf m else keysOf m ++ [k] := by
  induction m with
  | nil => simp [assignOne, keysOf]
  | cons p rest ih =>
    by_cases hpk : p.1 = k
    · subst hpk
      simp [assignOne, keysOf]
    · have hbeq : (p.1 == k) = false := by simp [hpk]
      simp only [assignOne, hbeq, Bool.false_eq_true, if_false, keysOf, List.map_cons]
      have hk : k ∈ keysOf (p :: rest) ↔ k ∈ keysOf rest := by
        simp only [keysOf, List.map_cons, List.mem_cons]
        constructor
        · rintro (h | h)
          · exact absurd h.symm hpk
          · exact h
        · exact fun h => Or.inr h
      have hkp : ¬ k = p.1 := fun hh => hpk hh.symm
      by_cases hmem : k ∈ keysOf rest
      · simp only [keysOf] at ih hmem ⊢
        simp [ih, hmem, hkp]
      · simp only [keysOf] at ih hmem ⊢
        simp [ih, hmem, hkp]

theorem nodup_keysOf_assignOne (m : NS) (k : String) (v : JsonValue)
    (h : (keysOf m).Nodup) : (keysOf (assignOne m k v)).Nodup := by
  rw [keysOf_assignOne]
  by_cases hmem : k ∈ keysOf m
  · simp [hmem, h]
  · simp only [hmem, if_false]
    simp [List.nodup_append, h, hmem]

theorem lookupNS_assignOne (m : NS) (k k' : String) (v : JsonValue)
    (h : (keysOf m).Nodup) :
    lookupNS (assignOne m k v) k' = if k' = k then some v else lookupNS m k' := by
  induction m with
  | nil =>
    simp only [assignOne, lookupNS]
    by_cases hk : k' = k
    · subst hk; simp
    · have : (k == k') = false := by
        simp only [beq_eq_false_iff_ne, ne_eq]
        exact fun hkk => hk hkk.symm
      simp [this, hk]
  | cons p rest ih =>
    have hnodup_rest : (keysOf rest).Nodup := by
      simp only [keysOf, List.map_cons, List.nodup_cons] at h
      exact h.2
    have hp_not_mem : p.1 ∉ keysOf rest := by
      simp only [keysOf, List.map_cons, List.nodup_cons] at h
      exact h.1
    by_cases hpk : p.1 = k
    · have hbeq : (p.1 == k) = true := by simp [hpk]
      simp only [assignOne, hbeq, if_true]
      by_cases hk : k' = k
      · subst hk
        have : lookupNS rest k' = none :=
          lookupNS_eq_none_of_not_mem rest k' (hpk ▸ hp_not_mem)
        simp [lookupNS, this]
      · have hkbeq : (k == k') = false := by
          simp only [beq_eq_false_iff_ne, ne_eq]
          exact fun hkk => hk hkk.symm
        have hpbeq : (p.1 == k') = false := by
          simp only [beq_eq_false_iff_ne, ne_eq]
          exact fun hpp => hk (hpk ▸ hpp : k = k').symm
        simp only [lookupNS, hk, if_false]
        cases hrest : lookupNS rest k' with
        | some w => simp
        | none => simp [hkbeq, hpbeq]
    · have hbeq : (p.1 == k) = false := by simp [hpk]
      simp only [assignOne, hbeq, Bool.false_eq_true, if_false]
      by_cases hk : k' = k
      · subst hk
        have hrest : lookupNS (assignOne rest k' v) k' = some v := by
          simp [ih hnodup_rest]
        simp [lookupNS, hrest]
      · simp only [lookupNS, ih hnodup_rest, hk, if_false]

theorem nodup_keysOf_assignObj (src acc : NS) (h : (keysOf acc).Nodup) :
    (keysOf (assignObj acc src)).Nodup := by
  induction src generalizing acc with
  | nil => exact h
  | cons s rest ih =>
    simp only [assignObj, List.foldl_cons] at *
    exact ih (assignOne acc s.1 s.2) (nodup_keysOf_assignOne acc s.1 s.2 h)

theorem lookupNS_assignObj (src acc : NS) (k : String) (h : (keysOf acc).Nodup) :
    lookupNS (assignObj acc src) k =
      match lookupNS src k with
      | some v => some v
      | none => lookupNS acc k := by
  induction src generalizing acc with
  | nil => simp [assignObj, lookupNS]
  | cons s rest ih =>
    simp only [assignObj, List.foldl_cons]
    have step := ih (assignOne acc s.1 s.2) (nodup_keysOf_assignOne acc s.1 s.2 h)
    simp only [assignObj] at step
    rw [step, lookupNS_assignOne acc s.1 k s.2 h]
    cases hrest : lookupNS rest k with
    | some w => simp [lookupNS, hrest]
    | none =>
      simp only [lookupNS, hrest]
      by_cases hk : k = s.1
      · subst hk
        simp
      · have : (s.1 == k) = false := by
          simp only [beq_eq_false_iff_ne, ne_eq]
          exact fun hh => hk hh.symm
        simp [hk, this]

theorem nodup_keysOf_mergeSources (maps : List NS) :
    (keysOf (mergeSources maps)).Nodup := by
  have general : ∀ (ms : List NS) (acc : NS), (keysOf acc).Nodup →
      (keysOf (ms.foldl assignObj acc)).Nodup := by
    intro ms
    induction ms with
    | nil => intro acc h; exact h
    | cons m rest ih =>
      intro acc h
      simp only [List.foldl_cons]
      exact ih (assignObj acc m) (nodup_keysOf_assignObj m acc h)
  exact general maps [] (by simp [keysOf])

theorem lookupNS_mergeSources (maps : List NS) (k : String) :
    lookupNS (mergeSources maps) k = lastSourceValue maps k := by
  have general : ∀ (ms : List NS) (acc : NS), (keysOf acc).Nodup →
      lookupNS (ms.foldl assignObj acc) k =
        ms.foldl (fun o m => match lookupNS m k with | some v => some v | none => o)
          (lookupNS acc k) := by
    intro ms
    induction ms with
    | nil => intro acc _; rfl
    | cons m rest ih =>
      intro acc h
      simp only [List.foldl_cons]
      rw [ih (assignObj acc m) (nodup_keysOf_assignObj m acc h),
        lookupNS_assignObj m acc k h]
  have base := general maps [] (by simp [keysOf])
  simpa [mergeSources, lastSourceValue, lookupNS] using base

theorem assignOne_append_of_not_mem (acc : NS) (k : String) (v : JsonValue)
    (h : k ∉ keysOf acc) : assignOne acc k v = acc ++ [(k, v)] := by
  induction acc with
  | nil => rfl
  | cons p rest ih =>
    simp only [keysOf, List.map_cons, List.mem_cons, not_or] at h
    have : (p.1 == k) = false := by
      simp only [beq_eq_false_iff_ne, ne_eq]
      exact fun hk => h.1 (hk ▸ rfl)
    simp only [assignOne, this, Bool.false_eq_true, if_false, List.cons_append,
      List.cons.injEq, true_and]
    exact ih h.2

theorem assignObj_append_of_disjoint (src acc : NS)
    (hsrc : (keysOf src).Nodup)
    (hdisj : ∀ k ∈ keysOf src, k ∉ keysOf acc) :
    assignObj acc src = acc ++ src := by
  induction src generalizing acc with
  | nil => simp [assignObj]
  | cons s rest ih =>
    simp only [keysOf, List.map_cons, List.nodup_cons] at hsrc
    have h1 : s.1 ∉ keysOf acc := hdisj s.1 (by simp [keysOf])
    simp only [assignObj, List.foldl_cons]
    have hstep : assignOne acc s.1 s.2 = acc ++ [s] := by
      rw [assignOne_append_of_not_mem acc s.1 s.2 h1]
    rw [hstep]
    have hrest : assignObj (acc ++ [s]) rest = (acc ++ [s]) ++ rest := by
      refine ih (acc ++ [s]) hsrc.2 ?_
      intro k hk
      simp only [keysOf, List.map_append, List.mem_append, List.map_cons,
        List.map_nil, List.mem_singleton, not_or]
      have hk' : k ∈ keysOf (s :: rest) := by
        simp only [keysOf, List.map_cons, List.mem_cons]
        exact Or.inr hk
      refine ⟨hdisj k hk', ?_⟩
      exact fun hks => hsrc.1 (hks ▸ hk)
    simpa only [assignObj, List.append_assoc, List.singleton_append] using hrest

theorem assignObj_nil (m : NS) (h : (keysOf m).Nodup) : assignObj [] m = m := by
  have := assignObj_append_of_disjoint m [] h (by simp [keysOf])
  simpa using this

/-- C2: merging an ordered list of source maps is a left-to-right fold in
which later maps overwrite earlier ones: every key maps to the value given by
the last map containing it, merging `[A,B,C]` equals merging
`[merge(A,B), C]`, and merging the empty list yields the empty namespace. -/
theorem c2_merge_left_fold_semantics :
    (∀ (maps : List NS) (k : String),
        lookupNS (mergeSources maps) k = lastSourceValue maps k)
    ∧ (∀ A B C : NS, mergeSources [A, B, C] = mergeSources [mergeSources [A, B], C])
    ∧ mergeSources [] = [] := by
  refine ⟨lookupNS_mergeSources, ?_, rfl⟩
  intro A B C
  have hnodup : (keysOf (mergeSources [A, B])).Nodup := nodup_keysOf_mergeSources [A, B]
  simp only [mergeSources, List.foldl_cons, List.foldl_nil] at hnodup ⊢
  rw [assignObj_nil _ hnodup]

theorem loadPlaceholders_foldl_general (fs : String → FileState) (parse : JParser) :
    ∀ (paths : List String) (acc : NS),
      paths.foldl
        (fun placeholders yamlPath =>
          match fs yamlPath with
          | FileState.absent => placeholders
          | FileState.unreadable => placeholders
          | FileState.content yamlContent =>
            match safeParseYaml parse yamlContent with
            | some filePlaceholders => assignObj placeholders (fieldsOf filePlaceholders)
            | none => placeholders)
        acc
      = (goodSources fs parse paths).foldl assignObj acc := by
  intro paths
  induction paths with
  | nil => intro acc; simp [goodSources]
  | cons p rest ih =>
    intro acc
    simp only [List.foldl_cons, goodSources, List.filterMap_cons]
    cases hfs : fs p with
    | absent => simpa [goodSources, hfs] using ih acc
    | unreadable => simpa [goodSources, hfs] using ih acc
    | content s =>
      cases hy : safeParseYaml parse s with
      | none => simpa [goodSources, hfs, hy] using ih acc
      | some v =>
        simpa [goodSources, hfs, hy] using ih (assignObj acc (fieldsOf v))

/-- C6: `loadPlaceholders` never fails past its own boundary; missing files,
failed reads and failed deserializations are each skipped, and the result is
exactly the merge of the surviving sources. -/
theorem c6_merger_skips_bad_sources (fs : String → FileState) (parse : JParser)
    (yamlPaths : List String) :
    loadPlaceholders fs parse yamlPaths = mergeSources (goodSources fs parse yamlPaths) := by
  simpa only [loadPlaceholders, mergeSources] using
    loadPlaceholders_foldl_general fs parse yamlPaths []


theorem matchInner_sound : ∀ (l i r : List Char), matchInner l = some (i, r) →
    l = i ++ closeBrace :: closeBrace :: r ∧ ∀ c ∈ i, c ≠ closeBrace := by
  intro l
  induction l with
  | nil => intro i r h; exact absurd h (by simp [matchInner])
  | cons c rest ih =>
    intro i r h
    by_cases hc : c = closeBrace
    · subst hc
      cases rest with
      | nil => simp [matchInner] at h
      | cons c2 rest2 =>
        by_cases hc2 : c2 = closeBrace
        · subst hc2
          simp only [matchInner, beq_self_eq_true, if_true, Option.some.injEq,
            Prod.mk.injEq] at h
          obtain ⟨hi, hr⟩ := h
          subst hi; subst hr
          simp
        · simp [matchInner, hc2] at h
    · have hcb : (c == closeBrace) = false := by simp [hc]
      simp only [matchInner, hcb, Bool.false_eq_true, if_false,
        Option.map_eq_some'] at h
      obtain ⟨⟨i', r'⟩, hrec, heq⟩ := h
      injection heq with hieq hreq
      subst hreq
      obtain ⟨hrest, hgood⟩ := ih i' r' hrec
      subst hieq
      refine ⟨by simp [hrest], ?_⟩
      intro d hd
      rcases List.mem_cons.mp hd with hd1 | hd2
      · exact hd1 ▸ hc
      · exact hgood d hd2

theorem matchInner_complete : ∀ (i r : List Char), (∀ c ∈ i, c ≠ closeBrace) →
    matchInner (i ++ closeBrace :: closeBrace :: r) = some (i, r) := by
  intro i
  induction i with
  | nil => intro r _; simp [matchInner]
  | cons c i' ih =>
    intro r hgood
    have hc : c ≠ closeBrace := hgood c (by simp)
    have hcb : (c == closeBrace) = false := by simp [hc]
    have hih := ih r (fun d hd => hgood d (by simp [hd]))
    simp only [List.cons_append, matchInner, hcb, Bool.false_eq_true, if_false,
      List.append_eq]
    rw [hih]
    rfl

theorem matchAt_sound : ∀ (l i r : List Char), matchAt l = some (i, r) →
    l = wrapBraces i ++ r ∧ i ≠ [] ∧ ∀ c ∈ i, c ≠ closeBrace := by
  intro l i r h
  match l with
  | [] => exact absurd h (by simp [matchAt])
  | [c] => exact absurd h (by simp [matchAt])
  | c1 :: c2 :: rest =>
    by_cases h12 : c1 = openBrace ∧ c2 = openBrace
    · obtain ⟨h1, h2⟩ := h12
      subst h1; subst h2
      cases hmi : matchInner rest with
      | none => simp [matchAt, hmi] at h
      | some p =>
        obtain ⟨i', r'⟩ := p
        by_cases hemp : i' = []
        · subst hemp
          simp [matchAt, hmi, List.isEmpty] at h
        · have hemp' : i'.isEmpty = false := by
            cases i' with
            | nil => exact absurd rfl hemp
            | cons a b => rfl
          simp only [matchAt, beq_self_eq_true, Bool.and_self, if_true, hmi, hemp',
            Bool.false_eq_true, if_false, Option.some.injEq, Prod.mk.injEq] at h
          obtain ⟨hi, hr⟩ := h
          subst hi; subst hr
          obtain ⟨hrest, hgood⟩ := matchInner_sound rest i' r' hmi
          refine ⟨by simp [wrapBraces, hrest], hemp, hgood⟩
    · have hb : (c1 == openBrace && c2 == openBrace) = false := by
        rcases not_and_or.mp h12 with hne | hne
        · simp [hne]
        · simp [hne]
      simp [matchAt, hb] at h

theorem matchAt_complete : ∀ (i r : List Char), i ≠ [] → (∀ c ∈ i, c ≠ closeBrace) →
    matchAt (wrapBraces i ++ r) = some (i, r) := by
  intro i r hne hgood
  have hmi := matchInner_complete i r hgood
  have hemp : i.isEmpty = false := by
    cases i with
    | nil => exact absurd rfl hne
    | cons a b => rfl
  simp only [wrapBraces, List.cons_append, List.append_assoc, List.nil_append,
    matchAt, beq_self_eq_true, Bool.and_self, if_true]
  rw [hmi]
  simp [hemp]

theorem matchAt_length : ∀ (l i r : List Char), matchAt l = some (i, r) →
    r.length + 4 ≤ l.length := by
  intro l i r h
  obtain ⟨hl, hne, _⟩ := matchAt_sound l i r h
  subst hl
  simp only [List.length_append, wrapBraces, List.length_cons]
  have : 1 ≤ i.length := by
    cases i with
    | nil => exact absurd rfl hne
    | cons a b => simp
  omega

theorem scanFuel_fuel_irrel : ∀ (f1 f2 : Nat) (l : List Char),
    l.length ≤ f1 → l.length ≤ f2 → scanFuel f1 l = scanFuel f2 l := by
  intro f1
  induction f1 with
  | zero =>
    intro f2 l h1 _
    have : l = [] := List.eq_nil_of_length_eq_zero (Nat.le_zero.mp h1)
    subst this
    cases f2 <;> rfl
  | succ a ih =>
    intro f2 l h1 h2
    cases l with
    | nil => cases f2 <;> rfl
    | cons c rest =>
      cases f2 with
      | zero => simp at h2
      | succ b =>
        simp only [scanFuel]
        cases hm : matchAt (c :: rest) with
        | some p =>
          obtain ⟨i, r⟩ := p
          have hlen := matchAt_length (c :: rest) i r hm
          simp only [List.length_cons] at hlen h1 h2
          exact congrArg (List.cons i) (ih b r (by omega) (by omega))
        | none =>
          simp only [List.length_cons] at h1 h2
          exact ih b rest (by omega) (by omega)

theorem scanChars_cons (c : Char) (rest : List Char) :
    scanChars (c :: rest) =
      match matchAt (c :: rest) with
      | some (i, r) => i :: scanChars r
      | none => scanChars rest := by
  simp only [scanChars, List.length_cons, scanFuel]
  cases hm : matchAt (c :: rest) with
  | some p =>
    obtain ⟨i, r⟩ := p
    have hlen := matchAt_length (c :: rest) i r hm
    simp only [List.length_cons] at hlen
    exact congrArg (List.cons i) (scanFuel_fuel_irrel rest.length r.length r (by omega) le_rfl)
  | none => rfl

theorem scan_mem_good : ∀ (n : Nat) (l : List Char), l.length ≤ n →
    ∀ i ∈ scanChars l, i ≠ [] ∧ (∀ c ∈ i, c ≠ closeBrace) ∧
      ∃ pre post, l = pre ++ wrapBraces i ++ post := by
  intro n
  induction n with
  | zero =>
    intro l h i hi
    have : l = [] := List.eq_nil_of_length_eq_zero (Nat.le_zero.mp h)
    subst this
    simp [scanChars, scanFuel] at hi
  | succ m ih =>
    intro l h i hi
    cases l with
    | nil => simp [scanChars, scanFuel] at hi
    | cons c rest =>
      rw [scanChars_cons] at hi
      cases hm : matchAt (c :: rest) with
      | some p =>
        obtain ⟨i0, r⟩ := p
        rw [hm] at hi
        obtain ⟨hl, hne, hgood⟩ := matchAt_sound (c :: rest) i0 r hm
        rcases List.mem_cons.mp hi with hi1 | hi2
        · subst hi1
          exact ⟨hne, hgood, [], r, by simpa using hl⟩
        · have hlen := matchAt_length (c :: rest) i0 r hm
          simp only [List.length_cons] at hlen h
          obtain ⟨hne', hgood', pre, post, hdecomp⟩ := ih r (by omega) i hi2
          exact ⟨hne', hgood', wrapBraces i0 ++ pre, post, by
            rw [hl, hdecomp]; simp⟩
      | none =>
        rw [hm] at hi
        simp only [List.length_cons] at h
        obtain ⟨hne', hgood', pre, post, hdecomp⟩ := ih rest (by omega) i hi
        exact ⟨hne', hgood', c :: pre, post, by rw [hdecomp]; simp⟩

theorem joinScan_cons_gap (c : Char) (g : List Char) (gaps inners : List (List Char)) :
    joinScan ((c :: g) :: gaps) inners = c :: joinScan (g :: gaps) inners := by
  cases inners with
  | nil => rfl
  | cons i rest => simp [joinScan]

theorem scan_order_decomp : ∀ (n : Nat) (l : List Char), l.length ≤ n →
    ∃ gaps, gaps.length = (scanChars l).length + 1 ∧ l = joinScan gaps (scanChars l) := by
  intro n
  induction n with
  | zero =>
    intro l h
    have : l = [] := List.eq_nil_of_length_eq_zero (Nat.le_zero.mp h)
    subst this
    exact ⟨[[]], by simp [scanChars, scanFuel, joinScan]⟩
  | succ m ih =>
    intro l h
    cases l with
    | nil => exact ⟨[[]], by simp [scanChars, scanFuel, joinScan]⟩
    | cons c rest =>
      rw [scanChars_cons]
      cases hm : matchAt (c :: rest) with
      | some p =>
        obtain ⟨i0, r⟩ := p
        obtain ⟨hl, _, _⟩ := matchAt_sound (c :: rest) i0 r hm
        have hlen := matchAt_length (c :: rest) i0 r hm
        simp only [List.length_cons] at hlen h
        obtain ⟨gaps', hlen', hdecomp'⟩ := ih r (by omega)
        cases gaps' with
        | nil => simp at hlen'
        | cons g0 grest =>
          refine ⟨[] :: g0 :: grest, by simpa using hlen', ?_⟩
          simp only [joinScan, List.nil_append]
          rw [hl]
          exact congrArg (wrapBraces i0 ++ ·) hdecomp'
      | none =>
        simp only [List.length_cons] at h
        obtain ⟨gaps', hlen', hdecomp'⟩ := ih rest (by omega)
        cases gaps' with
        | nil => simp at hlen'
        | cons g0 grest =>
          refine ⟨(c :: g0) :: grest, by simpa using hlen', ?_⟩
          rw [joinScan_cons_gap]
          exact congrArg (List.cons c) hdecomp'

theorem scan_complete : ∀ (n : Nat) (l : List Char), l.length ≤ n →
    hasPattern l → scanChars l ≠ [] := by
  intro n
  induction n with
  | zero =>
    intro l h hpat
    have : l = [] := List.eq_nil_of_length_eq_zero (Nat.le_zero.mp h)
    subst this
    obtain ⟨pre, i, post, hdecomp, hne, _⟩ := hpat
    cases pre <;> simp [wrapBraces] at hdecomp
  | succ m ih =>
    intro l h hpat
    obtain ⟨pre, i, post, hdecomp, hne, hgood⟩ := hpat
    cases pre with
    | nil =>
      have hl : l = wrapBraces i ++ post := by simpa using hdecomp
      have hma : matchAt l = some (i, post) := hl ▸ matchAt_complete i post hne hgood
      cases hl' : l with
      | nil => rw [hl'] at hma; simp [matchAt] at hma
      | cons c rest =>
        rw [hl'] at hma
        rw [scanChars_cons, hma]
        simp
    | cons c0 pre' =>
      have hl : l = c0 :: (pre' ++ wrapBraces i ++ post) := by simpa using hdecomp
      subst hl
      rw [scanChars_cons]
      cases hm : matchAt (c0 :: (pre' ++ wrapBraces i ++ post)) with
      | some p => simp
      | none =>
        simp only [List.length_cons] at h
        exact ih (pre' ++ wrapBraces i ++ post) (by omega) ⟨pre', i, post, rfl, hne, hgood⟩

theorem scan_empty_iff (l : List Char) : scanChars l = [] ↔ ¬ hasPattern l := by
  constructor
  · intro hempty hpat
    exact scan_complete l.length l le_rfl hpat hempty
  · intro hnopat
    cases hs : scanChars l with
    | nil => rfl
    | cons i rest =>
      obtain ⟨hne, hgood, pre, post, hdecomp⟩ :=
        scan_mem_good l.length l le_rfl i (by rw [hs]; simp)
      exact absurd ⟨pre, i, post, hdecomp, hne, hgood⟩ hnopat

/-- C9 (amended): the scanner matches double-open-brace, one-or-more
non-close-brace characters, double-close-brace: every reported occurrence has
a non-empty inner text free of close braces and occurs delimited in the
document; the document decomposes as alternating gaps and the reported
occurrences in document order; and the scan is empty exactly when the
document contains no instance of the pattern. -/
theorem c9_scanner_characterization :
    (∀ (l i : List Char), i ∈ scanChars l →
        i ≠ [] ∧ (∀ c ∈ i, c ≠ closeBrace) ∧ ∃ pre post, l = pre ++ wrapBraces i ++ post)
    ∧ (∀ l : List Char,
        ∃ gaps, gaps.length = (scanChars l).length + 1 ∧ l = joinScan gaps (scanChars l))
    ∧ (∀ l : List Char, scanChars l = [] ↔ ¬ hasPattern l) := by
  refine ⟨?_, ?_, scan_empty_iff⟩
  · intro l i hi
    exact scan_mem_good l.length l le_rfl i hi
  · intro l
    exact scan_order_decomp l.length l le_rfl

/-- C9 counterexample: on the document whose text is two open braces, "a",
an open brace, "b", two close braces, the scanner reports one occurrence
whose inner text contains a brace character (the open brace), so the claim
that inner texts contain no brace character is false of the code. -/
theorem c9_counterexample :
    scanChars (("\x7b\x7ba\x7bb\x7d\x7d").toList) = [("a\x7bb").toList]
    ∧ openBrace ∈ (("a\x7bb").toList) :=
  ⟨by decide, by decide⟩

/-- C9 witness: the characterization applied to the single-occurrence
document with inner text "x". -/
theorem c9_witness :
    ("x").toList ≠ [] ∧ (∀ c ∈ ("x").toList, c ≠ closeBrace) ∧
      ∃ pre post, ("\x7b\x7bx\x7d\x7d").toList = pre ++ wrapBraces (("x").toList) ++ post :=
  c9_scanner_characterization.1 (("\x7b\x7bx\x7d\x7d").toList) (("x").toList) (by decide)

/-- C1 (amended): in `updateDiagnostics` the empty check comes first, so a
whitespace-only occurrence is classified "empty placeholder"; an occurrence
whose trimmed text is non-empty and contains a space is classified "spaces
not allowed" (ahead of the illegal-character and undefined checks); and a
raw/trimmed whitespace difference alone never produces a "spaces not
allowed" classification. -/
theorem c1_classification_precedence (validVariables : List String) (variableRaw : List Char) :
    (trimChars variableRaw = [] →
        classifyOccurrence validVariables variableRaw = some DiagClass.emptyPlaceholder)
    ∧ (trimChars variableRaw ≠ [] → (trimChars variableRaw).contains ' ' = true →
        classifyOccurrence validVariables variableRaw = some DiagClass.spacesNotAllowed)
    ∧ (trimChars variableRaw ≠ variableRaw → (trimChars variableRaw).contains ' ' = false →
        classifyOccurrence validVariables variableRaw ≠ some DiagClass.spacesNotAllowed) := by
  refine ⟨?_, ?_, ?_⟩
  · intro h
    have hemp : (trimChars variableRaw).isEmpty = true := by
      rw [h]; rfl
    simp [classifyOccurrence, hemp]
  · intro h hs
    have hemp : (trimChars variableRaw).isEmpty = false := by
      cases htc : trimChars variableRaw with
      | nil => exact absurd htc h
      | cons a b => rfl
    simp only [classifyOccurrence, hemp, hs]
    simp
  · intro _ hs
    by_cases hemp : (trimChars variableRaw).isEmpty
    · simp [classifyOccurrence, hemp]
    · have hemp' : (trimChars variableRaw).isEmpty = false := by
        cases hb : (trimChars variableRaw).isEmpty
        · rfl
        · exact absurd hb hemp
      simp only [classifyOccurrence, hemp', Bool.false_eq_true, if_false, hs]
      split
      · simp
      · split
        · simp
        · simp

/-- C1 counterexample: the occurrence whose inner text is a single space
(the template "open-open-space-close-close") is classified "empty
placeholder" by `updateDiagnostics`, not "spaces not allowed", so the space
check does not take precedence over the empty check. -/
theorem c1_counterexample :
    updateDiagModel [] (("\x7b\x7b \x7d\x7d").toList) = [DiagClass.emptyPlaceholder]
    ∧ DiagClass.emptyPlaceholder ≠ DiagClass.spacesNotAllowed :=
  ⟨by decide, by decide⟩

/-- C1 witness: the amended precedence applied to the concrete inner texts
" " and "a b". -/
theorem c1_witness :
    classifyOccurrence [] ((" ").toList) = some DiagClass.emptyPlaceholder
    ∧ classifyOccurrence [] (("a b").toList) = some DiagClass.spacesNotAllowed :=
  ⟨(c1_classification_precedence [] ((" ").toList)).1 (by decide),
   (c1_classification_precedence [] (("a b").toList)).2.1 (by decide) (by decide)⟩

/-- C8: against every merged namespace, a template whose single scanned
occurrence has inner text "a b" produces exactly one diagnostic, classified
"spaces not allowed", and never an "undefined variable" diagnostic. -/
theorem c8_space_occurrence_always_spaces (placeholders : NS) (text : List Char)
    (h : scanChars text = [("a b").toList]) :
    updateDiagModel placeholders text = [DiagClass.spacesNotAllowed]
    ∧ DiagClass.undefinedVar ∉ updateDiagModel placeholders text := by
  have hclass : classifyOccurrence (keysOf placeholders) ['a', ' ', 'b'] =
      some DiagClass.spacesNotAllowed := rfl
  constructor
  · rw [updateDiagModel, h]
    simp [List.filterMap_cons, hclass]
  · rw [updateDiagModel, h]
    simp [List.filterMap_cons, hclass]

/-- C8 witness: the theorem applied to the empty namespace and the concrete
template consisting only of the occurrence with inner text "a b". -/
theorem c8_witness :
    updateDiagModel [] (("\x7b\x7ba b\x7d\x7d").toList) = [DiagClass.spacesNotAllowed]
    ∧ DiagClass.undefinedVar ∉ updateDiagModel [] (("\x7b\x7ba b\x7d\x7d").toList) :=
  c8_space_occurrence_always_spaces [] (("\x7b\x7ba b\x7d\x7d").toList) (by decide)

theorem filter_key_after_drop (r : SvcConfig) (l : List SvcConfig) :
    (l.filter (fun c => !(c.serviceName == r.serviceName && c.environment == r.environment))).filter
        (sameKey r) = [] := by
  induction l with
  | nil => rfl
  | cons c rest ih =>
    cases hc : (c.serviceName == r.serviceName && c.environment == r.environment) with
    | true =>
      rw [List.filter_cons_of_neg (by rw [hc]; decide)]
      exact ih
    | false =>
      rw [List.filter_cons_of_pos (by rw [hc]; decide),
        List.filter_cons_of_neg (show ¬ sameKey r c = true by rw [show sameKey r c = false from hc]; decide)]
      exact ih

theorem filter_drop_idem (r : SvcConfig) (l : List SvcConfig) :
    ((l.filter (fun c => !(c.serviceName == r.serviceName && c.environment == r.environment))).filter
        (fun c => !(c.serviceName == r.serviceName && c.environment == r.environment)))
      = l.filter (fun c => !(c.serviceName == r.serviceName && c.environment == r.environment)) := by
  induction l with
  | nil => rfl
  | cons c rest ih =>
    cases hc : (c.serviceName == r.serviceName && c.environment == r.environment) with
    | true =>
      rw [List.filter_cons_of_neg (by rw [hc]; decide)]
      exact ih
    | false =>
      rw [List.filter_cons_of_pos (by rw [hc]; decide),
        List.filter_cons_of_pos (by rw [hc]; decide), ih]

/-- C4: the filter-then-append upsert leaves exactly one record with the new
record's key — the new record itself — whatever was stored before, and
upserting the same record twice does not change the collection's length. -/
theorem c4_upsert_exactly_one (allConfigs : List SvcConfig) (r : SvcConfig) :
    (upsertConfig allConfigs r).filter (sameKey r) = [r]
    ∧ (upsertConfig (upsertConfig allConfigs r) r).length = (upsertConfig allConfigs r).length := by
  constructor
  · rw [upsertConfig, List.filter_append, filter_key_after_drop]
    simp [sameKey]
  · rw [upsertConfig, upsertConfig, List.filter_append, filter_drop_idem]
    simp [List.filter_cons]

/-- C5 (amended): both safe-parse entry points are total and return `null`
for blank input and for a parser throw; `safeParseYaml` additionally returns
`null` when the parsed top-level value is not a plain object and returns the
object otherwise; `safeParseJson` returns any successfully parsed value as
is, with no shape check. -/
theorem c5_safe_parse_contract (parse : JParser) (content : String) :
    (jsTrim content = ("") →
        safeParseYaml parse content = none ∧ safeParseJson parse content = none)
    ∧ (∀ e, parse content = Except.error e →
        safeParseYaml parse content = none ∧ safeParseJson parse content = none)
    ∧ (∀ v, parse content = Except.ok v → isPlaceholderObject v = false →
        safeParseYaml parse content = none)
    ∧ (∀ v, jsTrim content ≠ ("") → parse content = Except.ok v →
        isPlaceholderObject v = true → safeParseYaml parse content = some v)
    ∧ (∀ v, jsTrim content ≠ ("") → parse content = Except.ok v →
        safeParseJson parse content = some v) := by
  refine ⟨?_, ?_, ?_, ?_, ?_⟩
  · intro h
    have hb : (jsTrim content == ("")) = true := by simp [h]
    exact ⟨by simp [safeParseYaml, hb], by simp [safeParseJson, hb]⟩
  · intro e he
    by_cases ht : jsTrim content = ("")
    · have hb : (jsTrim content == ("")) = true := by simp [ht]
      exact ⟨by simp [safeParseYaml, hb], by simp [safeParseJson, hb]⟩
    · have hb : (jsTrim content == ("")) = false := by simp [ht]
      exact ⟨by simp [safeParseYaml, hb, he], by simp [safeParseJson, hb, he]⟩
  · intro v hv hobj
    by_cases ht : jsTrim content = ("")
    · have hb : (jsTrim content == ("")) = true := by simp [ht]
      simp [safeParseYaml, hb]
    · have hb : (jsTrim content == ("")) = false := by simp [ht]
      simp [safeParseYaml, hb, hv, hobj]
  · intro v ht hv hobj
    have hb : (jsTrim content == ("")) = false := by simp [ht]
    simp [safeParseYaml, hb, hv, hobj]
  · intro v ht hv
    have hb : (jsTrim content == ("")) = false := by simp [ht]
    simp [safeParseJson, hb, hv]

/-- C5 counterexample: `safeParseJson` on a successfully parsed top-level
list ("[1]") returns the list, not `null`, because the shape check exists
only in `safeParseYaml`. -/
theorem c5_counterexample :
    safeParseJson parseTopLevelArr ("[1]") = some (JsonValue.arr [JsonValue.num 1])
    ∧ safeParseJson parseTopLevelArr ("[1]") ≠ none := by
  have h1 : safeParseJson parseTopLevelArr ("[1]") = some (JsonValue.arr [JsonValue.num 1]) := rfl
  exact ⟨h1, by rw [h1]; simp⟩

/-- C5 witness: the contract applied to the concrete parser fixture and the
input "[1]". -/
theorem c5_witness :
    safeParseJson parseTopLevelArr ("[1]") = some (JsonValue.arr [JsonValue.num 1]) :=
  (c5_safe_parse_contract parseTopLevelArr ("[1]")).2.2.2.2 (JsonValue.arr [JsonValue.num 1])
    (by decide) rfl

/-- C7: auto-resolution derives the service name by normalizing the
immediate parent directory name, returns the source-path list of a stored
record matching that name and the remembered preferred environment
(defaulting to "dev"), falls back to any stored record for that service
name, and returns nothing when no record matches (or when the persisted
file is missing). -/
theorem c7_auto_resolution (configs : List SvcConfig) (lastEnvironment : Option String)
    (j2FilePath : String) :
    ((∀ c ∈ configs, c.serviceName ≠ extractServiceName (parentDirName j2FilePath)) →
        loadConfigurationForFile true configs lastEnvironment j2FilePath = none)
    ∧ ((∃ c ∈ configs, c.serviceName = extractServiceName (parentDirName j2FilePath) ∧
          c.environment = lastEnvironment.getD ("dev")) →
        ∃ d ∈ configs, d.serviceName = extractServiceName (parentDirName j2FilePath) ∧
          d.environment = lastEnvironment.getD ("dev") ∧
          loadConfigurationForFile true configs lastEnvironment j2FilePath = some d.yamlPaths)
    ∧ ((∃ c ∈ configs, c.serviceName = extractServiceName (parentDirName j2FilePath)) →
        ∃ d ∈ configs, d.serviceName = extractServiceName (parentDirName j2FilePath) ∧
          loadConfigurationForFile true configs lastEnvironment j2FilePath = some d.yamlPaths)
    ∧ loadConfigurationForFile false configs lastEnvironment j2FilePath = none := by
  refine ⟨?_, ?_, ?_, rfl⟩
  · intro hno
    have h1 : configs.find? (fun c =>
        c.serviceName == extractServiceName (parentDirName j2FilePath) &&
          c.environment == lastEnvironment.getD ("dev")) = none := by
      rw [List.find?_eq_none]
      intro c hc
      simp only [Bool.and_eq_true, beq_iff_eq, not_and]
      intro hsn
      exact absurd hsn (hno c hc)
    have h2 : configs.find? (fun c =>
        c.serviceName == extractServiceName (parentDirName j2FilePath)) = none := by
      rw [List.find?_eq_none]
      intro c hc
      simp only [beq_iff_eq]
      exact hno c hc
    simp [loadConfigurationForFile, h1, h2]
  · rintro ⟨c, hc, hcs, hce⟩
    cases hfind : configs.find? (fun c =>
        c.serviceName == extractServiceName (parentDirName j2FilePath) &&
          c.environment == lastEnvironment.getD ("dev")) with
    | none =>
      rw [List.find?_eq_none] at hfind
      exact absurd (by simp [hcs, hce]) (hfind c hc)
    | some d =>
      have hd := List.find?_some hfind
      simp only [Bool.and_eq_true, beq_iff_eq] at hd
      refine ⟨d, List.mem_of_find?_eq_some hfind, hd.1, hd.2, ?_⟩
      simp [loadConfigurationForFile, hfind]
  · rintro ⟨c, hc, hcs⟩
    cases hfind : configs.find? (fun c =>
        c.serviceName == extractServiceName (parentDirName j2FilePath) &&
          c.environment == lastEnvironment.getD ("dev")) with
    | some d =>
      have hd := List.find?_some hfind
      simp only [Bool.and_eq_true, beq_iff_eq] at hd
      refine ⟨d, List.mem_of_find?_eq_some hfind, hd.1, ?_⟩
      simp [loadConfigurationForFile, hfind]
    | none =>
      cases hfind2 : configs.find? (fun c =>
          c.serviceName == extractServiceName (parentDirName j2FilePath)) with
      | none =>
        rw [List.find?_eq_none] at hfind2
        exact absurd (by simp [hcs]) (hfind2 c hc)
      | some d =>
        have hd := List.find?_some hfind2
        simp only [beq_iff_eq] at hd
        refine ⟨d, List.mem_of_find?_eq_some hfind2, hd, ?_⟩
        simp [loadConfigurationForFile, hfind, hfind2]

/-- C7 witness: the resolution applied to a store holding one record for the
normalized service name "svca-name" under environment "prod", with preferred
environment "dev" (the fallback branch). -/
theorem c7_witness :
    ∃ d ∈ [({ serviceName := ("svca-name"), environment := ("prod"),
              yamlPaths := [("p.yml")] } : SvcConfig)],
      d.serviceName = extractServiceName (parentDirName ("central/SvcA_Name/file.j2")) ∧
        loadConfigurationForFile true
          [({ serviceName := ("svca-name"), environment := ("prod"),
              yamlPaths := [("p.yml")] } : SvcConfig)]
          (some ("dev")) ("central/SvcA_Name/file.j2") = some d.yamlPaths :=
  (c7_auto_resolution
      [({ serviceName := ("svca-name"), environment := ("prod"),
          yamlPaths := [("p.yml")] } : SvcConfig)]
      (some ("dev")) ("central/SvcA_Name/file.j2")).2.2.1
    (by decide)

theorem renderStep_skip (placeholders : NS) (acc variableRaw : List Char)
    (h : variableRaw.contains ' ' = true ∨
      (lookupNS placeholders (String.mk variableRaw)).isNone = true) :
    renderStep placeholders acc variableRaw = acc := by
  cases hc : variableRaw.contains ' ' with
  | true =>
    have hmem : ' ' ∈ variableRaw := by simpa using hc
    simp [renderStep, hmem]
  | false =>
    rcases h with h | h
    · exact absurd hc (by rw [h]; simp)
    · have hmem : ' ' ∉ variableRaw := by simpa using hc
      have hnone : lookupNS placeholders (String.mk variableRaw) = none :=
        Option.isNone_iff_eq_none.mp h
      simp [renderStep, hmem, hnone]

/-- C10 (amended): the render loop substitutes exactly those occurrences
whose raw (untrimmed) inner text contains no space and is itself defined in
the merged namespace, replacing the occurrence text with the string form of
the value; an occurrence whose raw inner text contains a space or is
undefined leaves the accumulated text unchanged, and a template all of whose
occurrences are skipped renders to itself verbatim. -/
theorem c10_render_substitution :
    (∀ (placeholders : NS) (acc variableRaw : List Char),
        variableRaw.contains ' ' = true ∨
          (lookupNS placeholders (String.mk variableRaw)).isNone = true →
        renderStep placeholders acc variableRaw = acc)
    ∧ (∀ (placeholders : NS) (acc variableRaw : List Char) (v : JsonValue),
        variableRaw.contains ' ' = false →
        lookupNS placeholders (String.mk variableRaw) = some v →
        renderStep placeholders acc variableRaw =
          replaceFirst acc (wrapBraces variableRaw) (toStringJS v).data)
    ∧ (∀ (placeholders : NS) (text : List Char),
        (∀ i ∈ scanChars text,
            i.contains ' ' = true ∨ (lookupNS placeholders (String.mk i)).isNone = true) →
        renderTemplate placeholders text = text) := by
  refine ⟨renderStep_skip, ?_, ?_⟩
  · intro placeholders acc variableRaw v hc hv
    have hmem : ' ' ∉ variableRaw := by simpa using hc
    simp [renderStep, hmem, hv]
  · intro placeholders text hall
    rw [renderTemplate]
    have general : ∀ (L : List (List Char)) (acc : List Char),
        (∀ i ∈ L, i.contains ' ' = true ∨
          (lookupNS placeholders (String.mk i)).isNone = true) →
        L.foldl (renderStep placeholders) acc = acc := by
      intro L
      induction L with
      | nil => intro acc _; rfl
      | cons i rest ih =>
        intro acc hL
        rw [List.foldl_cons, renderStep_skip placeholders acc i (hL i (by simp))]
        exact ih acc (fun j hj => hL j (by simp [hj]))
    exact general (scanChars text) text hall

/-- C10 counterexample: with the namespace defining "a" and the template
consisting of the single occurrence with raw inner text " a " (trimmed name
"a", defined, no internal space), the render loop leaves the occurrence
verbatim instead of substituting the value "1", because it uses the raw
inner text for both the space test and the lookup. -/
theorem c10_counterexample :
    renderTemplate nsSingleA paddedATemplate = paddedATemplate
    ∧ trimChars ((" a ").toList) = ("a").toList
    ∧ lookupNS nsSingleA ("a") = some (JsonValue.str ("1"))
    ∧ renderTemplate nsSingleA paddedATemplate ≠ (("1").toList) :=
  ⟨by decide, by decide, rfl, by decide⟩

/-- C10 witness: the all-skipped clause applied to the concrete namespace
and space-padded template. -/
theorem c10_witness :
    renderTemplate nsSingleA paddedATemplate = paddedATemplate :=
  c10_render_substitution.2.2 nsSingleA paddedATemplate (by decide)

/-- C3 (amended): every record emitted by `createServiceConfigurations` for
a discovered service carries a non-empty source-path list layered in the
order: global base file, then service-specific base file (service-name
prefixed, falling back to the generic application base name), then global
per-environment file, then service-specific per-environment file (service
prefixed, falling back to the generic per-environment name), each layer
included only if it exists on disk. -/
theorem c3_layered_paths_order (fs : CentralFS) (centralPath : String) (cfg : SvcConfig)
    (hmem : cfg ∈ createServiceConfigurations fs centralPath)
    (hsvc : (scanServices fs centralPath).1 ≠ []) :
    cfg.yamlPaths = layeredPathsSpec fs.pathExists centralPath cfg.serviceName cfg.environment
    ∧ cfg.yamlPaths ≠ [] := by
  cases hroot : (centralPath == ("") || !fs.pathExists centralPath) with
  | true => simp [createServiceConfigurations, hroot] at hmem
  | false =>
    have hserv : (scanServices fs centralPath).1.isEmpty = false := by
      cases hS : (scanServices fs centralPath).1 with
      | nil => exact absurd hS hsvc
      | cons a b => rfl
    simp only [createServiceConfigurations, hroot, Bool.false_eq_true, if_false, hserv,
      Bool.not_false, if_true] at hmem
    rw [List.mem_flatMap] at hmem
    obtain ⟨service, hserviceMem, hcfg⟩ := hmem
    rw [List.mem_filterMap] at hcfg
    obtain ⟨env, henvMem, hEq⟩ := hcfg
    cases hny : (buildYamlPaths fs.pathExists centralPath service env).isEmpty with
    | true => rw [hny] at hEq; simp at hEq
    | false =>
      rw [hny] at hEq
      simp only [Bool.not_false, if_true, Option.some.injEq] at hEq
      subst hEq
      refine ⟨rfl, ?_⟩
      intro hnil
      have hb : buildYamlPaths fs.pathExists centralPath service env = [] := hnil
      rw [hb] at hny
      simp at hny

/-- C3 counterexample: on the scenario tree (root `application.yml`,
`application-dev.yml`, `svcA/svcA.yml`) the discoverer emits the service
base file *before* the global per-environment file, not after it as the
claimed precedence order states. -/
theorem c3_counterexample :
    createServiceConfigurations fsScenario ("root")
      = [{ serviceName := ("svcA"), environment := ("dev"),
           yamlPaths := [("root/application.yml"), ("root/svcA/svcA.yml"),
             ("root/application-dev.yml")] }]
    ∧ [("root/application.yml"), ("root/svcA/svcA.yml"), ("root/application-dev.yml")]
      ≠ [("root/application.yml"), ("root/application-dev.yml"), ("root/svcA/svcA.yml")] :=
  ⟨by decide, by decide⟩

/-- C3 witness: the amended layering applied to the scenario tree's single
emitted record. -/
theorem c3_witness :
    ({ serviceName := ("svcA"), environment := ("dev"),
       yamlPaths := [("root/application.yml"), ("root/svcA/svcA.yml"),
         ("root/application-dev.yml")] } : SvcConfig).yamlPaths
      = layeredPathsSpec fsScenario.pathExists ("root") ("svcA") ("dev")
    ∧ ({ serviceName := ("svcA"), environment := ("dev"),
         yamlPaths := [("root/application.yml"), ("root/svcA/svcA.yml"),
           ("root/application-dev.yml")] } : SvcConfig).yamlPaths ≠ [] :=
  c3_layered_paths_order fsScenario ("root")
    { serviceName := ("svcA"), environment := ("dev"),
      yamlPaths := [("root/application.yml"), ("root/svcA/svcA.yml"),
        ("root/application-dev.yml")] }
    (by decide) (by decide)
